import Mathlib

/-!
Shallow embedding of the PSS (EMSA-PSS / PSSR) encode and verify transform
from src/lib/pk_pad/emsa_pssr/pssr.cpp.

Bytes are modelled as natural numbers (the source works on uint8_t vectors;
all byte values produced by the hash and the mask generator are below 256,
recorded as properties of the abstract hash).  The hash function and the
MGF1 mask generator are external collaborators of this translation unit:
they are modelled abstractly, as deterministic functions, following the
external-interface contracts stated in the specification.
-/

namespace PSSR

/-- Modelled from the spec: the external hash-function and mask-generation
contracts.  The hash is a deterministic function from a byte sequence to a
digest of a fixed output length; the streaming update calls of the source
are modelled by applying the function to the concatenation of everything
fed in before finalize.  The mask generator (MGF1 built on the hash) is a
deterministic function of the seed and the requested length. -/
structure HashFunction where
  output_length : Nat
  run : List Nat → List Nat
  mask : List Nat → Nat → List Nat
  run_length : ∀ m, (run m).length = output_length
  run_lt : ∀ m, ∀ b ∈ run m, b < 256
  mask_length : ∀ s n, (mask s n).length = n
  mask_lt : ∀ s n, ∀ b ∈ mask s n, b < 256

/-- Modelled from the spec: buffer_insert (from the byte-buffer utilities,
not part of this translation unit) copies the bytes of v into buf starting
at offset off, truncating the copy at the end of buf; the buffer keeps its
length. -/
def buffer_insert (buf : List Nat) (off : Nat) (v : List Nat) : List Nat :=
  buf.take off ++ v.take (buf.length - off) ++ buf.drop (off + v.length)

/-- Modelled from the spec: mgf1_mask produces a deterministic mask of n
bytes from the seed and XORs it in place over the first n bytes of buf. -/
def mgf1_mask (h : HashFunction) (seed : List Nat) (buf : List Nat) (n : Nat) : List Nat :=
  List.zipWith Nat.xor (buf.take n) (h.mask seed n) ++ buf.drop n

/-- Base-two logarithm with an explicit structural fuel argument (the
fuel is always taken to be the number itself, which suffices since the
argument at least halves at every step). -/
def log2fuel : Nat → Nat → Nat
  | 0, _ => 0
  | fuel + 1, n => if n < 2 then 0 else log2fuel fuel (n / 2) + 1

/-- Modelled from the spec: high_bit (bit utilities, not part of this
translation unit) returns the one-based index of the highest set bit of a
byte, and 0 for the byte 0, so that 8 - high_bit x is the number of
leading zero bits of x. -/
def high_bit (x : Nat) : Nat :=
  if x = 0 then 0 else log2fuel x x + 1

/-- Modelled from the spec: constant_time_compare decides equality of the
first n bytes of two buffers (its constant-time execution is a timing
property with no observable effect on the returned boolean). -/
def constant_time_compare (a b : List Nat) (n : Nat) : Bool :=
  decide (a.take n = b.take n)

/-- Models the in-place update EM[0] &= m of the source: applies a bitwise
AND with m to the first byte of the buffer. -/
def andFirst (l : List Nat) (m : Nat) : List Nat :=
  match l with
  | [] => []
  | b :: t => (b &&& m) :: t

/-- Models the separator-scan loop of pss_verify: scans the data block for
the first byte 0x01, skipping zero bytes; returns the offset just past the
separator (the salt offset), or none when a byte other than 0x00 is met
first or no 0x01 is ever found (both of which make the source return
false, the latter via salt_offset staying 0). -/
def findSep : List Nat → Option Nat
  | [] => none
  | b :: t =>
    if b = 0x01 then some 1
    else if b ≠ 0 then none
    else (findSep t).map (· + 1)

/-- pss_encode from pssr.cpp.  The two Encoding_Error throws are modelled
as none. -/
def pss_encode (h : HashFunction) (msg salt : List Nat) (output_bits : Nat) :
    Option (List Nat) :=
  let HASH_SIZE := h.output_length
  let SALT_SIZE := salt.length
  if msg.length ≠ HASH_SIZE then none
  else if output_bits < 8 * HASH_SIZE + 8 * SALT_SIZE + 9 then none
  else
    let output_length := (output_bits + 7) / 8
    let H := h.run (List.replicate 8 0 ++ msg ++ salt)
    let EM0 := List.replicate output_length 0
    let EM1 := EM0.set (output_length - HASH_SIZE - SALT_SIZE - 2) 0x01
    let EM2 := buffer_insert EM1 (output_length - 1 - HASH_SIZE - SALT_SIZE) salt
    let EM3 := mgf1_mask h H EM2 (output_length - HASH_SIZE - 1)
    let EM4 := andFirst EM3 (0xFF >>> (8 * ((output_bits + 7) / 8) - output_bits))
    let EM5 := buffer_insert EM4 (output_length - 1 - HASH_SIZE) H
    some (EM5.set (output_length - 1) 0xBC)

/-- Left-padding step of pss_verify: when the coded block is shorter than
KEY_BYTES it is copied into a zero buffer of KEY_BYTES bytes, right
aligned. -/
def padCoded (KEY_BYTES : Nat) (coded : List Nat) : List Nat :=
  if coded.length < KEY_BYTES then
    buffer_insert (List.replicate KEY_BYTES 0) (KEY_BYTES - coded.length) coded
  else coded

/-- The unmasked data block computed by pss_verify from the (already
left-padded) coded block: the MGF1 mask seeded by the stored H is XORed
over DB and the top bits of the first byte are cleared again. -/
def pss_DB (h : HashFunction) (coded : List Nat) (key_bits : Nat) : List Nat :=
  let HASH_SIZE := h.output_length
  let TOP_BITS := 8 * ((key_bits + 7) / 8) - key_bits
  let DB_size := coded.length - HASH_SIZE - 1
  let H := (coded.drop DB_size).take HASH_SIZE
  andFirst (mgf1_mask h H (coded.take DB_size) DB_size) (0xFF >>> TOP_BITS)

/-- The part of pss_verify after the structural checks and the left
padding: top-bit check, unmasking, separator scan, hash recomputation and
constant-time comparison.  Returns the verification boolean together with
the value left in the caller-initialized salt-size out-parameter (written
only on success, otherwise 0). -/
def pss_verify_tail (h : HashFunction) (coded message_hash : List Nat) (key_bits : Nat) :
    Bool × Nat :=
  let HASH_SIZE := h.output_length
  let TOP_BITS := 8 * ((key_bits + 7) / 8) - key_bits
  if TOP_BITS > 8 - high_bit (coded.getD 0 0) then (false, 0)
  else
    let DB_size := coded.length - HASH_SIZE - 1
    let H := (coded.drop DB_size).take HASH_SIZE
    let DB := pss_DB h coded key_bits
    match findSep DB with
    | none => (false, 0)
    | some salt_offset =>
      let salt_size := DB_size - salt_offset
      let salt := (DB.drop salt_offset).take salt_size
      let H2 := h.run (List.replicate 8 0 ++ message_hash ++ salt)
      if constant_time_compare H H2 HASH_SIZE then (true, salt_size) else (false, 0)

/-- pss_verify from pssr.cpp.  The second component is the value of the
caller's salt_size variable (initialized to 0 and written through the
out-pointer only when the comparison succeeds). -/
def pss_verify (h : HashFunction) (pss_repr message_hash : List Nat) (key_bits : Nat) :
    Bool × Nat :=
  let HASH_SIZE := h.output_length
  let KEY_BYTES := (key_bits + 7) / 8
  if key_bits < 8 * HASH_SIZE + 9 then (false, 0)
  else if message_hash.length ≠ HASH_SIZE then (false, 0)
  else if pss_repr.length > KEY_BYTES ∨ pss_repr.length ≤ 1 then (false, 0)
  else if pss_repr.getD (pss_repr.length - 1) 0 ≠ 0xBC then (false, 0)
  else pss_verify_tail h (padCoded KEY_BYTES pss_repr) message_hash key_bits

/-- The PSSR engine state: the owned hash, the configured salt size and
whether the salt size is required at verification (set by the two
constructors). -/
structure Engine where
  m_hash : HashFunction
  m_salt_size : Nat
  m_required_salt_len : Bool

/-- PSSR::verify from pssr.cpp: runs pss_verify with a salt_size variable
initialized to 0, then downgrades a match to false when the policy
requires an exact salt length and the recovered one differs. -/
def Engine.verify (e : Engine) (coded raw : List Nat) (key_bits : Nat) : Bool :=
  let r := pss_verify e.m_hash coded raw key_bits
  if e.m_required_salt_len ∧ r.2 ≠ e.m_salt_size then false else r.1

/-- The PSSR_Raw engine state: its hash (used for metadata and masking),
salt policy, and the internal raw message buffer fed by update. -/
structure RawEngine where
  m_hash : HashFunction
  m_salt_size : Nat
  m_required_salt_len : Bool
  m_msg : List Nat

/-- PSSR_Raw::update from pssr.cpp: appends the input to the internal
buffer. -/
def RawEngine.update (e : RawEngine) (input : List Nat) : RawEngine :=
  { e with m_msg := e.m_msg ++ input }

/-- PSSR_Raw::raw_data from pssr.cpp: swaps the buffer into a local
before the length check, so the state keeps an empty buffer on every
path; the Encoding_Error throw is modelled as none. -/
def RawEngine.raw_data (e : RawEngine) : Option (List Nat) × RawEngine :=
  let ret := e.m_msg
  let e2 := { e with m_msg := ([] : List Nat) }
  if ret.length ≠ e.m_hash.output_length then (none, e2) else (some ret, e2)

/-- The encoded block produced by pss_encode, written as an explicit
concatenation: the masked data block (zero padding, the 0x01 separator
and the salt, XORed with the MGF1 mask and with the top bits of the first
byte cleared), followed by H and the trailer byte 0xBC. -/
def emBlock (h : HashFunction) (msg salt : List Nat) (output_bits : Nat) : List Nat :=
  let L := (output_bits + 7) / 8
  let H := h.run (List.replicate 8 0 ++ msg ++ salt)
  let dbLen := L - h.output_length - 1
  let preDB := List.replicate (dbLen - salt.length - 1) 0 ++ 0x01 :: salt
  andFirst (List.zipWith Nat.xor preDB (h.mask H dbLen)) (0xFF >>> (8 * L - output_bits))
    ++ H ++ [0xBC]

/-! Helper lemmas about the byte-level operations. -/

theorem length_andFirst (l : List Nat) (m : Nat) : (andFirst l m).length = l.length := by
  cases l <;> simp [andFirst]

theorem andFirst_append (l t : List Nat) (m : Nat) (hl : l ≠ []) :
    andFirst (l ++ t) m = andFirst l m ++ t := by
  cases l with
  | nil => exact absurd rfl hl
  | cons b l => simp [andFirst]

theorem zipWith_xor_cancel (p m : List Nat) (h : p.length ≤ m.length) :
    List.zipWith Nat.xor (List.zipWith Nat.xor p m) m = p := by
  induction p generalizing m with
  | nil => simp
  | cons a p ih =>
    cases m with
    | nil => simp at h
    | cons b m =>
      simp only [List.zipWith_cons_cons, List.cons.injEq]
      refine ⟨?_, ih m (by simpa using h)⟩
      show a ^^^ b ^^^ b = a
      rw [Nat.xor_assoc, Nat.xor_self, Nat.xor_zero]

theorem nat_and_self (a : Nat) : a &&& a = a := by
  apply Nat.eq_of_testBit_eq
  intro i
  simp [Nat.testBit_and]

theorem and_xor_and_cancel (a b M : Nat) : ((a ^^^ b) &&& M ^^^ b) &&& M = a &&& M := by
  rw [Nat.and_xor_distrib_right, Nat.land_assoc, nat_and_self,
    Nat.and_xor_distrib_right, Nat.xor_assoc, Nat.xor_self, Nat.xor_zero]

theorem unmask_cancel (p m : List Nat) (M : Nat) (h : p.length ≤ m.length) :
    andFirst (List.zipWith Nat.xor (andFirst (List.zipWith Nat.xor p m) M) m) M =
      andFirst p M := by
  cases p with
  | nil => simp [andFirst]
  | cons a p =>
    cases m with
    | nil => simp at h
    | cons b m =>
      simp only [List.zipWith_cons_cons, andFirst, List.cons.injEq]
      exact ⟨and_xor_and_cancel a b M, zipWith_xor_cancel p m (by simpa using h)⟩

theorem findSep_replicate (k : Nat) (salt : List Nat) :
    findSep (List.replicate k 0 ++ 0x01 :: salt) = some (k + 1) := by
  induction k with
  | zero => simp [findSep]
  | succ k ih => simp [List.replicate_succ, findSep, ih]

theorem findSep_all_zero (l : List Nat) (h : ∀ b ∈ l, b = 0) : findSep l = none := by
  induction l with
  | nil => rfl
  | cons b t ih =>
    have hb : b = 0 := h b (List.mem_cons_self b t)
    subst hb
    simp only [findSep]
    rw [ih (fun b hb => h b (List.mem_cons_of_mem _ hb))]
    rfl

theorem findSep_bad_byte (l : List Nat) (j : Nat) (hj : j < l.length)
    (h0 : l.getD j 0 ≠ 0) (h1 : l.getD j 0 ≠ 1) (hpre : ∀ i ≤ j, l.getD i 0 ≠ 1) :
    findSep l = none := by
  induction l generalizing j with
  | nil => simp at hj
  | cons b t ih =>
    have hb1 : b ≠ 1 := by simpa using hpre 0 (Nat.zero_le j)
    cases j with
    | zero =>
      simp only [List.getD_cons_zero] at h0 h1
      simp [findSep, h1, h0]
    | succ j =>
      by_cases hb0 : b = 0
      · subst hb0
        have ht : findSep t = none :=
          ih j (by simpa using hj) (by simpa using h0) (by simpa using h1)
            (fun i hi => by simpa using hpre (i + 1) (by omega))
        simp [findSep, ht]
      · simp [findSep, hb1, hb0]

theorem log2fuel_lt (f n k : Nat) (h : n < 2 ^ k) (hk : 0 < k) : log2fuel f n < k := by
  induction f generalizing n k with
  | zero => simpa [log2fuel] using hk
  | succ f ih =>
    simp only [log2fuel]
    split
    · exact hk
    · next hn =>
      have hk2 : 2 ≤ k := by
        by_contra hlt
        have hk1 : k = 1 := by omega
        rw [hk1] at h
        omega
      have hpow : 2 ^ k = 2 * 2 ^ (k - 1) := by
        rw [← pow_succ']
        congr 1
        omega
      have hhalf : n / 2 < 2 ^ (k - 1) := by
        rw [hpow] at h
        omega
      have := ih (n / 2) (k - 1) hhalf (by omega)
      omega

theorem high_bit_le (x n : Nat) (h : x < 2 ^ n) : high_bit x ≤ n := by
  unfold high_bit
  split
  · exact Nat.zero_le n
  · next hx =>
    have hn : 0 < n := by
      by_contra hn0
      have : n = 0 := by omega
      rw [this] at h
      omega
    have := log2fuel_lt x x n h hn
    omega

theorem high_bit_le_eight (x : Nat) (h : x < 256) : high_bit x ≤ 8 :=
  high_bit_le x 8 h

theorem set_at (A : List Nat) (b : Nat) (B : List Nat) (v n : Nat) (hn : n = A.length) :
    (A ++ b :: B).set n v = A ++ v :: B := by
  subst hn
  rw [List.set_append_right _ _ (Nat.le_refl _), Nat.sub_self, List.set_cons_zero]

theorem buffer_insert_at (A w B v : List Nat) (n : Nat) (hn : n = A.length)
    (hw : w.length = v.length) :
    buffer_insert (A ++ (w ++ B)) n v = A ++ (v ++ B) := by
  subst hn
  unfold buffer_insert
  rw [List.take_left' rfl]
  have h1 : (A ++ (w ++ B)).length - A.length = w.length + B.length := by
    simp
  rw [h1, List.take_of_length_le (by omega)]
  have h2 : A.length + v.length = (A ++ w).length := by simp [hw]
  rw [h2, show A ++ (w ++ B) = (A ++ w) ++ B from (List.append_assoc A w B).symm,
    List.drop_left' rfl, List.append_assoc]

theorem mgf1_mask_at (h : HashFunction) (seed A B : List Nat) (n : Nat) (hn : n = A.length) :
    mgf1_mask h seed (A ++ B) n = List.zipWith Nat.xor A (h.mask seed n) ++ B := by
  subst hn
  unfold mgf1_mask
  rw [List.take_left' rfl, List.drop_left' rfl]

/-- The block produced by pss_encode, when the digest length matches and
output_bits meets the floor, equals the explicit concatenation emBlock. -/
theorem pss_encode_eq (h : HashFunction) (msg salt : List Nat) (ob : Nat)
    (hmsg : msg.length = h.output_length)
    (hob : 8 * h.output_length + 8 * salt.length + 9 ≤ ob) :
    pss_encode h msg salt ob = some (emBlock h msg salt ob) := by
  have hL : h.output_length + salt.length + 2 ≤ (ob + 7) / 8 := by omega
  simp only [pss_encode, emBlock]
  rw [if_neg (by omega : ¬msg.length ≠ h.output_length),
    if_neg (by omega : ¬ob < 8 * h.output_length + 8 * salt.length + 9)]
  set HS := h.output_length with hHS
  set S := salt.length with hS
  set L := (ob + 7) / 8 with hLdef
  set Hl := h.run (List.replicate 8 0 ++ msg ++ salt) with hHl
  have hHlen : Hl.length = HS := h.run_length _
  set k := L - HS - S - 2 with hk
  congr 1
  -- align the padding length used by emBlock with k
  rw [show L - HS - 1 - S - 1 = k from by omega]
  -- step 1: setting the separator byte in the zero block
  have hrep : List.replicate L (0 : Nat) =
      List.replicate k 0 ++ 0 :: (List.replicate S 0 ++ List.replicate (HS + 1) 0) := by
    rw [show L = k + (S + (HS + 1) + 1) from by omega, List.replicate_add,
      List.replicate_succ, List.replicate_add]
  rw [hrep, set_at _ _ _ _ _ (by simp)]
  -- step 2: inserting the salt right after the separator
  rw [List.append_cons _ (0x01 : Nat),
    buffer_insert_at (List.replicate k (0 : Nat) ++ [0x01]) (List.replicate S 0)
      (List.replicate (HS + 1) 0) salt (L - 1 - HS - S) (by simp; omega) (by simp)]
  -- step 3: masking the first L - HS - 1 bytes
  rw [show (List.replicate k (0 : Nat) ++ [0x01]) ++ (salt ++ List.replicate (HS + 1) 0) =
      (List.replicate k (0 : Nat) ++ 0x01 :: salt) ++ List.replicate (HS + 1) 0 from by
        simp [List.append_assoc]]
  set preDB := List.replicate k (0 : Nat) ++ 0x01 :: salt with hpre
  have hpreLen : preDB.length = L - HS - 1 := by simp [hpre]; omega
  rw [mgf1_mask_at h Hl preDB (List.replicate (HS + 1) 0) (L - HS - 1) hpreLen.symm]
  -- step 4: clearing the top bits of the first byte
  set M := 0xFF >>> (8 * L - ob) with hM
  set maskL := h.mask Hl (L - HS - 1) with hmaskL
  have hmaskLen : maskL.length = L - HS - 1 := h.mask_length _ _
  have hZlen : (List.zipWith Nat.xor preDB maskL).length = L - HS - 1 := by
    rw [List.length_zipWith, hmaskLen, hpreLen]; simp
  have hZne : List.zipWith Nat.xor preDB maskL ≠ [] := by
    intro hnil
    rw [hnil] at hZlen
    simp at hZlen
    omega
  rw [andFirst_append _ _ _ hZne]
  set X := andFirst (List.zipWith Nat.xor preDB maskL) M with hX
  have hXlen : X.length = L - HS - 1 := by rw [hX, length_andFirst, hZlen]
  -- step 5: inserting H after the masked region
  rw [List.replicate_succ' HS (0 : Nat),
    show X ++ (List.replicate HS (0 : Nat) ++ [0]) = X ++ (List.replicate HS 0 ++ [0]) from rfl,
    buffer_insert_at X (List.replicate HS 0) [0] Hl (L - 1 - HS)
      (by rw [hXlen]; omega) (by simp [hHlen])]
  -- step 6: writing the trailer byte
  rw [show X ++ (Hl ++ [0]) = (X ++ Hl) ++ 0 :: [] from by simp [List.append_assoc],
    set_at (X ++ Hl) 0 [] 0xBC (L - 1) (by simp [hXlen, hHlen]; omega)]

theorem mgf1_mask_full (h : HashFunction) (seed buf : List Nat) (n : Nat) (hn : n = buf.length) :
    mgf1_mask h seed buf n = List.zipWith Nat.xor buf (h.mask seed n) := by
  subst hn
  unfold mgf1_mask
  rw [List.take_of_length_le (Nat.le_refl _), List.drop_of_length_le (Nat.le_refl _),
    List.append_nil]

theorem and_M_of_le_one (x M : Nat) (hx : x ≤ 1) (hM : M % 2 = 1) : x &&& M = x := by
  interval_cases x
  · exact Nat.zero_and M
  · rw [Nat.land_comm, Nat.and_one_is_mod, hM]

theorem andFirst_eq_self (l : List Nat) (M : Nat) (h : l.getD 0 0 &&& M = l.getD 0 0) :
    andFirst l M = l := by
  cases l with
  | nil => rfl
  | cons b t =>
    simp only [List.getD_cons_zero] at h
    simp [andFirst, h]

theorem shiftR_mod_two (t : Nat) (ht : t ≤ 7) : ((0xFF : Nat) >>> t) % 2 = 1 := by
  interval_cases t <;> decide

theorem shiftR_lt_pow (t : Nat) (ht : t ≤ 7) : (0xFF : Nat) >>> t < 2 ^ (8 - t) := by
  interval_cases t <;> decide

theorem andFirst_head_le (l : List Nat) (M : Nat) (hl : l ≠ []) :
    (andFirst l M).getD 0 0 ≤ M := by
  cases l with
  | nil => exact absurd rfl hl
  | cons b t => simpa [andFirst] using Nat.and_le_right

theorem pss_verify_emBlock (h : HashFunction) (msg salt : List Nat) (ob : Nat)
    (hmsg : msg.length = h.output_length)
    (hob : 8 * h.output_length + 8 * salt.length + 9 ≤ ob) :
    pss_verify h (emBlock h msg salt ob) msg ob = (true, salt.length) := by
  have hL : h.output_length + salt.length + 2 ≤ (ob + 7) / 8 := by omega
  simp only [emBlock]
  rw [show (ob + 7) / 8 - h.output_length - 1 - salt.length - 1
      = (ob + 7) / 8 - h.output_length - salt.length - 2 from by omega]
  set HS := h.output_length with hHS
  set S := salt.length with hS
  set L := (ob + 7) / 8 with hLdef
  set Hl := h.run (List.replicate 8 0 ++ msg ++ salt) with hHl
  have hHlen : Hl.length = HS := h.run_length _
  set k := L - HS - S - 2 with hk
  set M := 0xFF >>> (8 * L - ob) with hM
  set preDB := List.replicate k (0 : Nat) ++ 0x01 :: salt with hpre
  have hpreLen : preDB.length = L - HS - 1 := by simp [hpre]; omega
  set maskL := h.mask Hl (L - HS - 1) with hmaskL
  have hmaskLen : maskL.length = L - HS - 1 := h.mask_length _ _
  set X := andFirst (List.zipWith Nat.xor preDB maskL) M with hX
  have hXlen : X.length = L - HS - 1 := by
    rw [hX, length_andFirst, List.length_zipWith, hmaskLen, hpreLen]; simp
  have hXne : X ≠ [] := by
    intro hnil
    rw [hnil] at hXlen
    simp at hXlen
    omega
  have hEMlen : (X ++ Hl ++ [188]).length = L := by
    simp [hXlen, hHlen]; omega
  have hT7 : 8 * L - ob ≤ 7 := by omega
  have hlen3 : (X ++ Hl ++ [188]).length - 1 = (X ++ Hl).length := by simp
  have hlast : (X ++ Hl ++ [188]).getD ((X ++ Hl ++ [188]).length - 1) 0 = 188 := by
    rw [hlen3, List.getD_append_right _ _ _ _ (Nat.le_refl _), Nat.sub_self]
    rfl
  simp only [pss_verify]
  rw [← hLdef, ← hHS]
  split_ifs with hc1 hc2 hc3 hc4
  · omega
  · omega
  · rw [hEMlen] at hc3; omega
  · exact absurd hlast hc4
  simp only [padCoded]
  split_ifs with hc5
  · rw [hEMlen] at hc5; omega
  rw [List.append_assoc]
  simp only [pss_verify_tail]
  rw [← hLdef, ← hHS]
  have hZne : List.zipWith Nat.xor preDB maskL ≠ [] := by
    intro hnil
    have := congrArg List.length hnil
    rw [List.length_zipWith, hmaskLen, hpreLen] at this
    simp at this
    omega
  have hhead0 : (X ++ (Hl ++ [188])).getD 0 0 = X.getD 0 0 :=
    List.getD_append _ _ _ _ (by rw [hXlen]; omega)
  have hheadle : X.getD 0 0 ≤ M := by rw [hX]; exact andFirst_head_le _ _ hZne
  have hMlt : M < 2 ^ (8 - (8 * L - ob)) := by rw [hM]; exact shiftR_lt_pow _ hT7
  have hhb : high_bit ((X ++ (Hl ++ [188])).getD 0 0) ≤ 8 - (8 * L - ob) := by
    rw [hhead0]; exact high_bit_le _ _ (lt_of_le_of_lt hheadle hMlt)
  split_ifs with hc6
  · omega
  have hDBs : (X ++ (Hl ++ [188])).length - HS - 1 = X.length := by
    simp [hHlen]; omega
  have hdrop : (X ++ (Hl ++ [188])).drop X.length = Hl ++ [188] := List.drop_left' rfl
  have htake : (X ++ (Hl ++ [188])).take X.length = X := List.take_left' rfl
  have hModd : M % 2 = 1 := by rw [hM]; exact shiftR_mod_two _ hT7
  have hpd : preDB.getD 0 0 ≤ 1 := by
    rw [hpre]
    rcases Nat.eq_zero_or_pos k with hk0 | hk0
    · simp [hk0]
    · rw [List.getD_append _ _ _ _ (by simp; omega)]
      obtain ⟨m, hm⟩ : ∃ m, k = m + 1 := ⟨k - 1, by omega⟩
      rw [hm, List.replicate_succ]
      simp
  have hDB : pss_DB h (X ++ (Hl ++ [188])) ob = preDB := by
    simp only [pss_DB]
    rw [← hLdef, ← hHS, hDBs, hdrop, List.take_left' hHlen, htake,
      mgf1_mask_full h Hl X X.length rfl, hXlen, ← hmaskL, ← hM, hX,
      unmask_cancel preDB maskL M (by rw [hpreLen, hmaskLen])]
    exact andFirst_eq_self _ _ (and_M_of_le_one _ _ hpd hModd)
  have hsep : findSep (pss_DB h (X ++ (Hl ++ [188])) ob) = some (k + 1) := by
    rw [hDB, hpre]; exact findSep_replicate k salt
  rw [hsep, hDB]
  have hsz2 : X.length - (k + 1) = S := by rw [hXlen]; omega
  have hdropPre : preDB.drop (k + 1) = salt := by
    rw [hpre, List.append_cons, List.drop_left' (by simp)]
  simp only [hDBs, hdrop, List.take_left' hHlen]
  simp [hsz2, hdropPre, List.take_of_length_le (le_of_eq hS.symm), ← hHl, constant_time_compare]
  rfl


/-! Concrete hash instances used to instantiate the theorems on concrete
inputs.  They satisfy the external hash contract (fixed output length,
byte-valued output, deterministic mask of the requested length). -/

/-- A one-byte hash: the digest is the byte sum of the input modulo 256;
the mask repeats the first seed byte. -/
def hashA : HashFunction where
  output_length := 1
  run := fun m => [(m.foldl (fun a b => a + b) 0) % 256]
  mask := fun s n => List.replicate n (s.headD 0 % 256)
  run_length := fun _ => rfl
  run_lt := by intro m b hb; simp at hb; omega
  mask_length := fun _ n => by simp
  mask_lt := by
    intro s n b hb
    have := List.eq_of_mem_replicate hb
    omega

/-- A degenerate one-byte hash whose digest is always the byte 1 and whose
mask is all zeros. -/
def hashB : HashFunction where
  output_length := 1
  run := fun _ => [1]
  mask := fun _ n => List.replicate n 0
  run_length := fun _ => rfl
  run_lt := by intro m b hb; simp at hb; omega
  mask_length := fun _ n => by simp
  mask_lt := by
    intro s n b hb
    have := List.eq_of_mem_replicate hb
    omega

/-- C1: for every digest of length HASH_SIZE, every salt, and every
output_bits meeting the floor, verifying the block produced by encode
against the same digest succeeds whenever key_bits has the same byte
length and the same top-bit count as output_bits. -/
theorem C1_round_trip (h : HashFunction) (msg salt : List Nat) (ob kb : Nat)
    (hmsg : msg.length = h.output_length)
    (hob : 8 * h.output_length + 8 * salt.length + 9 ≤ ob)
    (hceil : (kb + 7) / 8 = (ob + 7) / 8)
    (htop : 8 * ((kb + 7) / 8) - kb = 8 * ((ob + 7) / 8) - ob) :
    (pss_encode h msg salt ob).map (fun EM => (pss_verify h EM msg kb).1) = some true := by
  have hkb : kb = ob := by omega
  subst hkb
  rw [pss_encode_eq h msg salt kb hmsg hob]
  simp [pss_verify_emBlock h msg salt kb hmsg hob]

/-- Witness for C1 at a concrete hash, digest, salt and bit length. -/
theorem C1_round_trip_witness :
    (pss_encode hashA [7] [3] 25).map (fun EM => (pss_verify hashA EM [7] 25).1) = some true :=
  C1_round_trip hashA [7] [3] 25 25 (by decide) (by decide) rfl rfl

/-- C2: the block returned by encode has length ceil(output_bits/8) and is
exactly the masked data block (zero padding, the byte 0x01 at offset
output_length - HASH_SIZE - SALT_SIZE - 2, the salt immediately after it,
XORed with the MGF1 mask seeded by H = Hash(0x00*8 || digest || salt) over
the first output_length - HASH_SIZE - 1 bytes, the top
8*output_length - output_bits bits of the first byte cleared), followed by
H and the trailer byte 0xBC. -/
theorem C2_encode_structure (h : HashFunction) (msg salt : List Nat) (ob : Nat)
    (hmsg : msg.length = h.output_length)
    (hob : 8 * h.output_length + 8 * salt.length + 9 ≤ ob) :
    ∃ EM, pss_encode h msg salt ob = some EM ∧
      EM.length = (ob + 7) / 8 ∧
      EM = andFirst (List.zipWith Nat.xor
            (List.replicate ((ob + 7) / 8 - h.output_length - salt.length - 2) 0
              ++ 0x01 :: salt)
            (h.mask (h.run (List.replicate 8 0 ++ msg ++ salt))
              ((ob + 7) / 8 - h.output_length - 1)))
          (0xFF >>> (8 * ((ob + 7) / 8) - ob))
        ++ h.run (List.replicate 8 0 ++ msg ++ salt) ++ [0xBC] ∧
      EM.getD 0 0 < 2 ^ (8 - (8 * ((ob + 7) / 8) - ob)) ∧
      EM.getD (EM.length - 1) 0 = 0xBC := by
  have hL : h.output_length + salt.length + 2 ≤ (ob + 7) / 8 := by omega
  have hT7 : 8 * ((ob + 7) / 8) - ob ≤ 7 := by omega
  refine ⟨emBlock h msg salt ob, pss_encode_eq h msg salt ob hmsg hob, ?_, ?_, ?_, ?_⟩
  · simp only [emBlock, List.length_append, length_andFirst, List.length_zipWith,
      h.mask_length, h.run_length, List.length_replicate, List.length_cons]
    simp
    omega
  · simp only [emBlock]
    rw [show (ob + 7) / 8 - h.output_length - 1 - salt.length - 1
        = (ob + 7) / 8 - h.output_length - salt.length - 2 from by omega]
  · simp only [emBlock]
    set Hl := h.run (List.replicate 8 0 ++ msg ++ salt) with hHl
    set Z := List.zipWith Nat.xor
      (List.replicate ((ob + 7) / 8 - h.output_length - 1 - salt.length - 1) 0 ++ 0x01 :: salt)
      (h.mask Hl ((ob + 7) / 8 - h.output_length - 1)) with hZ
    set M := 0xFF >>> (8 * ((ob + 7) / 8) - ob) with hM
    have hZlen : Z.length = (ob + 7) / 8 - h.output_length - 1 := by
      rw [hZ, List.length_zipWith, h.mask_length]
      simp
      omega
    have hZne : Z ≠ [] := by
      intro hnil
      rw [hnil] at hZlen
      simp at hZlen
      omega
    have hAne : 0 < (andFirst Z M).length := by rw [length_andFirst, hZlen]; omega
    rw [List.getD_append _ _ _ _ (by simp [length_andFirst]; omega),
      List.getD_append _ _ _ _ hAne]
    exact lt_of_le_of_lt (andFirst_head_le Z M hZne) (hM ▸ shiftR_lt_pow _ hT7)
  · simp only [emBlock]
    set Hl := h.run (List.replicate 8 0 ++ msg ++ salt) with hHl
    have hHlen : Hl.length = h.output_length := h.run_length _
    set A := andFirst (List.zipWith Nat.xor
      (List.replicate ((ob + 7) / 8 - h.output_length - 1 - salt.length - 1) 0 ++ 0x01 :: salt)
      (h.mask Hl ((ob + 7) / 8 - h.output_length - 1))) (0xFF >>> (8 * ((ob + 7) / 8) - ob))
      with hA
    have hlen : (A ++ Hl ++ [0xBC]).length - 1 = (A ++ Hl).length := by simp
    rw [hlen, List.getD_append_right _ _ _ _ (Nat.le_refl _), Nat.sub_self]
    rfl

/-- Witness for C2 at a concrete hash, digest, salt and bit length. -/
theorem C2_encode_structure_witness :
    ∃ EM, pss_encode hashA [7] [3] 25 = some EM ∧
      EM.length = (25 + 7) / 8 ∧
      EM = andFirst (List.zipWith Nat.xor
            (List.replicate ((25 + 7) / 8 - hashA.output_length - [3].length - 2) 0
              ++ 0x01 :: [3])
            (hashA.mask (hashA.run (List.replicate 8 0 ++ [7] ++ [3]))
              ((25 + 7) / 8 - hashA.output_length - 1)))
          (0xFF >>> (8 * ((25 + 7) / 8) - 25))
        ++ hashA.run (List.replicate 8 0 ++ [7] ++ [3]) ++ [0xBC] ∧
      EM.getD 0 0 < 2 ^ (8 - (8 * ((25 + 7) / 8) - 25)) ∧
      EM.getD (EM.length - 1) 0 = 0xBC :=
  C2_encode_structure hashA [7] [3] 25 (by decide) (by decide)

/-- A degenerate one-byte hash whose digest is always the byte 0 and whose
mask is all zeros. -/
def hashC : HashFunction where
  output_length := 1
  run := fun _ => [0]
  mask := fun _ n => List.replicate n 0
  run_length := fun _ => rfl
  run_lt := by intro m b hb; simp at hb; omega
  mask_length := fun _ n => by simp
  mask_lt := by
    intro s n b hb
    have := List.eq_of_mem_replicate hb
    omega

/-- C3: when the coded block passes the structural checks of verify, an
unmasked DB region that is entirely zero (no 0x01 ever found), or that
contains a byte other than 0x00 and 0x01 before the first 0x01, makes
verify return false. -/
theorem C3_separator_scan (h : HashFunction) (coded digest : List Nat) (kb : Nat)
    (hk : ¬kb < 8 * h.output_length + 9)
    (hd : digest.length = h.output_length)
    (hlen : ¬(coded.length > (kb + 7) / 8 ∨ coded.length ≤ 1))
    (hbc : coded.getD (coded.length - 1) 0 = 0xBC)
    (htb : ¬(8 * ((kb + 7) / 8) - kb >
      8 - high_bit ((padCoded ((kb + 7) / 8) coded).getD 0 0)))
    (hsep : (∀ b ∈ pss_DB h (padCoded ((kb + 7) / 8) coded) kb, b = 0) ∨
      (∃ j, j < (pss_DB h (padCoded ((kb + 7) / 8) coded) kb).length ∧
        (pss_DB h (padCoded ((kb + 7) / 8) coded) kb).getD j 0 ≠ 0 ∧
        (pss_DB h (padCoded ((kb + 7) / 8) coded) kb).getD j 0 ≠ 1 ∧
        ∀ i ≤ j, (pss_DB h (padCoded ((kb + 7) / 8) coded) kb).getD i 0 ≠ 1)) :
    (pss_verify h coded digest kb).1 = false := by
  have hfind : findSep (pss_DB h (padCoded ((kb + 7) / 8) coded) kb) = none := by
    rcases hsep with hz | ⟨j, hj, h0, h1, hp⟩
    · exact findSep_all_zero _ hz
    · exact findSep_bad_byte _ j hj h0 h1 hp
  simp only [pss_verify]
  split_ifs with c1 c2
  · rfl
  · rfl
  simp only [pss_verify_tail]
  rw [if_neg htb, hfind]

/-- Witness for C3: an all-zero DB region is rejected. -/
theorem C3_separator_scan_witness : (pss_verify hashC [0, 0, 0xBC] [0] 17).1 = false :=
  C3_separator_scan hashC [0, 0, 0xBC] [0] 17 (by decide) (by decide) (by decide)
    (by decide) (by decide) (Or.inl (by decide))

/-- C4: a coded block whose last byte is not 0xBC is always rejected,
whatever the rest of its bytes, the digest and key_bits are. -/
theorem C4_trailer (h : HashFunction) (coded digest : List Nat) (kb : Nat)
    (hbc : coded.getD (coded.length - 1) 0 ≠ 0xBC) :
    (pss_verify h coded digest kb).1 = false := by
  simp only [pss_verify]
  split_ifs <;> rfl

/-- Witness for C4 at a concrete block with a wrong trailer byte. -/
theorem C4_trailer_witness : (pss_verify hashA [1, 2, 3] [7] 17).1 = false :=
  C4_trailer hashA [1, 2, 3] [7] 17 (by decide)

/-- C5: with a digest of the right length, encode fails exactly when
output_bits is below 8*HASH_SIZE + 8*SALT_SIZE + 9; and verify returns
the plain value (false, 0) whenever key_bits is below 8*HASH_SIZE + 9. -/
theorem C5_length_floor (h : HashFunction) (msg salt coded digest : List Nat) (ob kb : Nat)
    (hmsg : msg.length = h.output_length)
    (hkb : kb < 8 * h.output_length + 9) :
    (pss_encode h msg salt ob = none ↔ ob < 8 * h.output_length + 8 * salt.length + 9) ∧
      pss_verify h coded digest kb = (false, 0) := by
  constructor
  · simp only [pss_encode]
    rw [if_neg (by omega : ¬msg.length ≠ h.output_length)]
    split_ifs with hc
    · simp [hc]
    · simp [hc]
  · simp only [pss_verify]
    rw [if_pos hkb]

/-- Witness for C5 at concrete undersized bit lengths. -/
theorem C5_length_floor_witness :
    (pss_encode hashA [7] [3] 5 = none ↔ 5 < 8 * hashA.output_length + 8 * [3].length + 9) ∧
      pss_verify hashA [1, 2] [0] 10 = (false, 0) :=
  C5_length_floor hashA [7] [3] [1, 2] [0] 5 10 (by decide) (by decide)

/-- C6: encode fails on any message whose length differs from HASH_SIZE,
and verify returns false on any digest whose length differs from
HASH_SIZE. -/
theorem C6_digest_mismatch (h : HashFunction) (msg salt coded digest : List Nat) (ob kb : Nat)
    (hmsg : msg.length ≠ h.output_length)
    (hd : digest.length ≠ h.output_length) :
    pss_encode h msg salt ob = none ∧ (pss_verify h coded digest kb).1 = false := by
  constructor
  · simp only [pss_encode]
    rw [if_pos hmsg]
  · simp only [pss_verify]
    split_ifs <;> rfl

/-- Witness for C6 at concrete mismatched lengths. -/
theorem C6_digest_mismatch_witness :
    pss_encode hashA [1, 2] [3] 25 = none ∧ (pss_verify hashA [0, 0] [2, 3] 25).1 = false :=
  C6_digest_mismatch hashA [1, 2] [3] [0, 0] [2, 3] 25 25 (by decide) (by decide)

/-- C7: a coded block of length zero or one, or longer than
ceil(key_bits/8) bytes, makes verify return (false, 0); the result is the
same for any hash function with the same output length, reflecting that
the hash is never invoked on this path. -/
theorem C7_short_input (h h' : HashFunction) (coded digest : List Nat) (kb : Nat)
    (houtlen : h'.output_length = h.output_length)
    (hlen : coded.length ≤ 1 ∨ (kb + 7) / 8 < coded.length) :
    pss_verify h coded digest kb = (false, 0) ∧
      pss_verify h' coded digest kb = pss_verify h coded digest kb := by
  have p : ∀ g : HashFunction, g.output_length = h.output_length →
      pss_verify g coded digest kb = (false, 0) := by
    intro g hg
    simp only [pss_verify]
    split_ifs with c1 c2 c3 c4 <;> first | rfl | omega
  exact ⟨p h rfl, (p h' houtlen).trans (p h rfl).symm⟩

/-- Witness for C7 at a concrete one-byte coded block. -/
theorem C7_short_input_witness :
    pss_verify hashA [5] [7] 17 = (false, 0) ∧
      pss_verify hashB [5] [7] 17 = pss_verify hashA [5] [7] 17 :=
  C7_short_input hashA hashB [5] [7] 17 (by decide) (Or.inl (by decide))

/-- C8: on an engine whose policy requires an exact salt length, a block
whose hash comparison succeeded (pss_verify returned true, reporting the
recovered salt size) is still rejected when that size differs from the
configured one. -/
theorem C8_salt_policy (e : Engine) (coded raw : List Nat) (kb s : Nat)
    (hreq : e.m_required_salt_len = true)
    (hok : pss_verify e.m_hash coded raw kb = (true, s))
    (hs : s ≠ e.m_salt_size) :
    Engine.verify e coded raw kb = false := by
  simp only [Engine.verify]
  rw [hok, if_pos ⟨hreq, hs⟩]

/-- Witness for C8: a block that passes the hash comparison with an empty
salt is rejected by an engine requiring salt size 5. -/
theorem C8_salt_policy_witness :
    Engine.verify ⟨hashB, 5, true⟩ [1, 1, 0xBC] [1] 17 = false :=
  C8_salt_policy ⟨hashB, 5, true⟩ [1, 1, 0xBC] [1] 17 0 rfl (by decide) (by decide)

/-- C9: verification does not change when the coded block (of length
greater than one and at most KEY_BYTES) is extended on the left with zero
bytes to exactly KEY_BYTES bytes. -/
theorem C9_left_pad (h : HashFunction) (coded digest : List Nat) (kb : Nat)
    (hgt : 1 < coded.length) (hle : coded.length ≤ (kb + 7) / 8) :
    pss_verify h (List.replicate ((kb + 7) / 8 - coded.length) 0 ++ coded) digest kb =
      pss_verify h coded digest kb := by
  have hPlen : (List.replicate ((kb + 7) / 8 - coded.length) (0 : Nat) ++ coded).length
      = (kb + 7) / 8 := by
    simp
    omega
  have hlast : (List.replicate ((kb + 7) / 8 - coded.length) (0 : Nat) ++ coded).getD
      ((List.replicate ((kb + 7) / 8 - coded.length) (0 : Nat) ++ coded).length - 1) 0
      = coded.getD (coded.length - 1) 0 := by
    rw [List.getD_append_right _ _ _ _ (by simp; omega)]
    congr 1
    simp
    omega
  have hpadP : padCoded ((kb + 7) / 8)
      (List.replicate ((kb + 7) / 8 - coded.length) 0 ++ coded)
      = List.replicate ((kb + 7) / 8 - coded.length) 0 ++ coded := by
    simp only [padCoded]
    rw [if_neg (by rw [hPlen]; omega)]
  have hpadC : padCoded ((kb + 7) / 8) coded
      = List.replicate ((kb + 7) / 8 - coded.length) 0 ++ coded := by
    simp only [padCoded]
    split_ifs with hc
    · unfold buffer_insert
      rw [List.take_replicate, List.drop_replicate,
        Nat.min_eq_left (by omega),
        show (List.replicate ((kb + 7) / 8) (0 : Nat)).length
          - ((kb + 7) / 8 - coded.length) = coded.length from by simp; omega,
        List.take_of_length_le (Nat.le_refl _),
        show (kb + 7) / 8 - ((kb + 7) / 8 - coded.length + coded.length) = 0 from by omega]
      simp
    · rw [show (kb + 7) / 8 - coded.length = 0 from by omega]
      simp
  have hc3P : ¬((List.replicate ((kb + 7) / 8 - coded.length) (0 : Nat) ++ coded).length
      > (kb + 7) / 8 ∨
      (List.replicate ((kb + 7) / 8 - coded.length) (0 : Nat) ++ coded).length ≤ 1) := by
    rw [hPlen]
    omega
  have hc3C : ¬(coded.length > (kb + 7) / 8 ∨ coded.length ≤ 1) := by omega
  simp only [pss_verify]
  rw [if_neg hc3P, if_neg hc3C, hlast, hpadP, hpadC]

/-- Witness for C9 at a concrete two-byte block and 17-bit key. -/
theorem C9_left_pad_witness :
    pss_verify hashA (List.replicate ((17 + 7) / 8 - [0, 0xBC].length) 0 ++ [0, 0xBC]) [9] 17 =
      pss_verify hashA [0, 0xBC] [9] 17 :=
  C9_left_pad hashA [0, 0xBC] [9] 17 (by decide) (by decide)

/-- C10: the raw-buffering finalize swaps the internal buffer out before
the length check, so the state left behind always has an empty buffer,
and the call fails exactly when the buffered length differs from the hash
output length. -/
theorem C10_raw_buffer_cleared (e : RawEngine) :
    (RawEngine.raw_data e).2.m_msg = [] ∧
      ((RawEngine.raw_data e).1 = none ↔ e.m_msg.length ≠ e.m_hash.output_length) := by
  simp only [RawEngine.raw_data]
  split_ifs with hc
  · simp [hc]
  · simp [hc]

end PSSR
